import Mathlib

/-!
Verification of the itko CT log against its specification.

The Go sources are shallowly embedded: byte strings become `List Nat`
(each element standing for one byte), machine integers become `Nat`/`Int`
with explicit wrap-around where the Go code truncates, fallible code
returns `Option`, and a Go runtime panic is a distinguished result
constructor.  Each definition carries a comment naming the Go function it
translates.
-/

namespace Itko

/-- Byte strings.  A Go `[]byte` is a list of byte values. -/
abbrev Bytes := List Nat

/-- Big-endian encoding of `n mod 256^w` on exactly `w` bytes.  This is the
byte layout produced by cryptobyte's `AddUint8` / `AddUint16` / `AddUint24`
/ `AddUint64` (and the u40 of the extensions codec) for the respective
widths. -/
def beBytes : Nat → Nat → Bytes
  | 0, _ => []
  | w + 1, n => beBytes w (n / 256) ++ [n % 256]

/-- Accumulating big-endian reader: consume `w` bytes, folding them into
`acc`; `none` when fewer than `w` bytes remain.  This is cryptobyte's
`ReadUint8` / `ReadUint16` / `ReadUint24` / `ReadUint64` (and `readUint40`)
loop. -/
def readBEAux : Nat → Nat → Bytes → Option (Nat × Bytes)
  | 0, acc, s => some (acc, s)
  | w + 1, acc, s =>
    match s with
    | [] => none
    | b :: bs => readBEAux w (acc * 256 + b) bs

/-- Read a `w`-byte big-endian unsigned integer off the front of `s`. -/
def readBE (w : Nat) (s : Bytes) : Option (Nat × Bytes) :=
  readBEAux w 0 s

/-- cryptobyte `CopyBytes` into a buffer of length `k`: take exactly `k`
bytes, failing when fewer remain. -/
def copyN (k : Nat) (s : Bytes) : Option (Bytes × Bytes) :=
  if k ≤ s.length then some (s.take k, s.drop k) else none

/-- cryptobyte `ReadUint16LengthPrefixed` / `ReadUint24LengthPrefixed`:
read a `w`-byte big-endian length, then that many content bytes. -/
def readSized (w : Nat) (s : Bytes) : Option (Bytes × Bytes) :=
  match readBE w s with
  | none => none
  | some (len, rest) => copyN len rest

theorem beBytes_length (w n : Nat) : (beBytes w n).length = w := by
  induction w generalizing n with
  | zero => rfl
  | succ w ih => simp [beBytes, ih]

theorem readBEAux_beBytes (w : Nat) :
    ∀ (v acc n : Nat) (r : Bytes), n < 256 ^ w →
      readBEAux (w + v) acc (beBytes w n ++ r) = readBEAux v (acc * 256 ^ w + n) r := by
  induction w with
  | zero =>
    intro v acc n r hn
    interval_cases n
    simp [beBytes]
  | succ w ih =>
    intro v acc n r hn
    have hdiv : n / 256 < 256 ^ w := by
      have : n < 256 ^ w * 256 := by
        have := hn
        rw [pow_succ] at this
        exact this
      omega
    have hstep : w + 1 + v = w + (v + 1) := by omega
    calc readBEAux (w + 1 + v) acc (beBytes (w + 1) n ++ r)
        = readBEAux (w + (v + 1)) acc (beBytes w (n / 256) ++ (n % 256 :: r)) := by
          rw [hstep]; simp [beBytes]
      _ = readBEAux (v + 1) (acc * 256 ^ w + n / 256) (n % 256 :: r) := ih (v + 1) acc _ _ hdiv
      _ = readBEAux v ((acc * 256 ^ w + n / 256) * 256 + n % 256) r := rfl
      _ = readBEAux v (acc * 256 ^ (w + 1) + n) r := by
          congr 1
          have hmod := Nat.div_add_mod n 256
          ring_nf
          omega

/-- Reading back a `w`-byte big-endian encoding recovers the value and the
trailing bytes. -/
theorem readBE_beBytes (w n : Nat) (r : Bytes) (hn : n < 256 ^ w) :
    readBE w (beBytes w n ++ r) = some (n, r) := by
  have h := readBEAux_beBytes w 0 0 n r hn
  simpa [readBE, readBEAux] using h

/-- Reading back exactly the bytes that were written recovers them. -/
theorem copyN_append (l r : Bytes) : copyN l.length (l ++ r) = some (l, r) := by
  simp [copyN, List.take_left, List.drop_left]

theorem copyN_append_of_length (k : Nat) (l r : Bytes) (h : l.length = k) :
    copyN k (l ++ r) = some (l, r) := by
  subst h; exact copyN_append l r

/-- Reading back a length-prefixed field recovers its content and the
trailing bytes. -/
theorem readSized_roundtrip (w : Nat) (l r : Bytes) (h : l.length < 256 ^ w) :
    readSized w (beBytes w l.length ++ (l ++ r)) = some (l, r) := by
  simp only [readSized, readBE_beBytes w l.length (l ++ r) h, copyN_append]

/-! ## The tile codec (internal/sunlight/tile_ol.go) -/

/-- `sunlight.LogEntry` (tile_ol.go).  `[32]byte` fields are byte lists
whose length-32 well-formedness is carried as hypotheses where needed;
`Chain` keeps only the raw DER bytes of each chain certificate (the Go
field holds parsed `*x509.Certificate` values, of which only `Raw` is ever
serialized); `Timestamp` is the Go `int64`, `LeafIndex` the Go `uint64`. -/
structure LogEntry where
  certificate : Bytes
  isPrecert : Bool
  issuerKeyHash : Bytes
  preCertificate : Bytes
  certificateFp : Bytes
  chainFp : List Bytes
  chain : List Bytes
  timestamp : Int
  leafIndex : Nat
deriving DecidableEq, Repr

/-- Go's `uint64(t)` conversion of an `int64`: two's-complement
reinterpretation, i.e. the representative of `t` modulo `2^64`. -/
def uint64OfInt (t : Int) : Nat :=
  (t % ((2 : Int) ^ 64)).toNat

/-- Modelled from the spec: `sunlight.MarshalExtensions` is absent from
the provided sources (only its callers are); per the spec the extensions
block is `u8 type=0 || u16-len-prefixed (u40 leaf_index)`, so it is one
type byte, a two-byte length 5, and the 40-bit big-endian leaf index. -/
def marshalExtensions (leafIndex : Nat) : Bytes :=
  [0] ++ beBytes 2 5 ++ beBytes 5 leafIndex

/-- `addExtensions` (tile_ol.go:226-235): the marshalled extensions block
wrapped in a u16 length. -/
def addExtensions (leafIndex : Nat) : Bytes :=
  beBytes 2 (marshalExtensions leafIndex).length ++ marshalExtensions leafIndex

/-- `sunlight.AppendTileLeaf` (tile_ol.go:197-224).  `none` models the
`BytesOrPanic` panic of the cryptobyte builder when a u24 length-prefixed
field exceeds `2^24-1` bytes; the u16 fingerprint count is written with
Go's silently truncating `uint16(len(e.ChainFp))` cast, which `beBytes 2`
reproduces. -/
def appendTileLeaf (t : Bytes) (e : LogEntry) : Option Bytes :=
  if 2 ^ 24 ≤ e.certificate.length then none
  else if e.isPrecert ∧ 2 ^ 24 ≤ e.preCertificate.length then none
  else some (t
    ++ beBytes 8 (uint64OfInt e.timestamp)
    ++ (if e.isPrecert then beBytes 2 1 ++ e.issuerKeyHash else beBytes 2 0)
    ++ (beBytes 3 e.certificate.length ++ e.certificate)
    ++ addExtensions e.leafIndex
    ++ (if e.isPrecert then beBytes 3 e.preCertificate.length ++ e.preCertificate else [])
    ++ beBytes 2 e.chainFp.length
    ++ e.chainFp.flatten)

/-- Result of `ReadTileLeaf`: a parsed entry with the remaining tile
bytes, a decoding error, or a Go runtime panic. -/
inductive ReadResult where
  | ok (e : LogEntry) (rest : Bytes)
  | err
  | panic
deriving DecidableEq, Repr

/-- The fingerprint loop of `ReadTileLeaf` (tile_ol.go:175-182): read
`n` 32-byte fingerprints. -/
def readChainFps : Nat → Bytes → Option (List Bytes × Bytes)
  | 0, s => some ([], s)
  | n + 1, s =>
    match copyN 32 s with
    | none => none
    | some (fp, s1) =>
      match readChainFps n s1 with
      | none => none
      | some (fps, s2) => some (fp :: fps, s2)

/-- Modelled from the spec: `sunlight.readUint40` is absent from the
provided sources; per the spec the leaf index is a 40-bit big-endian
integer, i.e. five big-endian bytes. -/
def readUint40 (s : Bytes) : Option (Nat × Bytes) :=
  readBE 5 s

/-- The extensions check of `ReadTileLeaf` (tile_ol.go:185-192): one type
byte which must be 0, a u16 length-prefixed body holding exactly a u40
leaf index, and no residue at either level. -/
def parseExtensions (extensions : Bytes) : Option Nat :=
  match readBE 1 extensions with
  | none => none
  | some (extensionType, e1) =>
    if extensionType ≠ 0 then none
    else
      match readSized 2 e1 with
      | none => none
      | some (extensionData, e2) =>
        match readUint40 extensionData with
        | none => none
        | some (leafIndex, e3) =>
          if e3 = [] ∧ e2 = [] then some leafIndex else none

/-- Tail of `ReadTileLeaf` after the per-entry-type fields
(tile_ol.go:169-193): fingerprint count, fingerprints, the unguarded
`e.CertificateFp = e.ChainFp[0]` (a Go index-out-of-range panic when the
fingerprint count is zero), then the extensions check. -/
def finishTileLeaf (timestamp : Nat) (isPrecert : Bool)
    (issuerKeyHash cert preCert extensions s : Bytes) : ReadResult :=
  match readBE 2 s with
  | none => .err
  | some (fingerprintCount, s1) =>
    match readChainFps fingerprintCount s1 with
    | none => .err
    | some (chainFp, s2) =>
      match chainFp with
      | [] => .panic
      | fp0 :: _ =>
        match parseExtensions extensions with
        | none => .err
        | some leafIndex =>
          .ok { certificate := cert, isPrecert := isPrecert,
                issuerKeyHash := issuerKeyHash, preCertificate := preCert,
                certificateFp := fp0, chainFp := chainFp, chain := [],
                timestamp := (timestamp : Int), leafIndex := leafIndex } s2

/-- `sunlight.ReadTileLeaf` (tile_ol.go:141-194).  The Go zero value of
the entry gives the x509 branch an all-zero issuer key hash and empty
pre-certificate; `timestamp > math.MaxInt64` is rejected after the first
two reads. -/
def readTileLeaf (tile : Bytes) : ReadResult :=
  match readBE 8 tile with
  | none => .err
  | some (timestamp, s1) =>
    match readBE 2 s1 with
    | none => .err
    | some (entryType, s2) =>
      if 2 ^ 63 - 1 < timestamp then .err
      else if entryType = 0 then
        match readSized 3 s2 with
        | none => .err
        | some (cert, s3) =>
          match readSized 2 s3 with
          | none => .err
          | some (extensions, s4) =>
            finishTileLeaf timestamp false (List.replicate 32 0) cert [] extensions s4
      else if entryType = 1 then
        match copyN 32 s2 with
        | none => .err
        | some (issuerKeyHash, s3) =>
          match readSized 3 s3 with
          | none => .err
          | some (cert, s4) =>
            match readSized 2 s4 with
            | none => .err
            | some (extensions, s5) =>
              match readSized 3 s5 with
              | none => .err
              | some (preCert, s6) =>
                finishTileLeaf timestamp true issuerKeyHash cert preCert extensions s6
      else .err

theorem readChainFps_flatten (fps : List Bytes) (r : Bytes)
    (h : ∀ fp ∈ fps, fp.length = 32) :
    readChainFps fps.length (fps.flatten ++ r) = some (fps, r) := by
  induction fps with
  | nil => simp [readChainFps]
  | cons fp fps ih =>
    have hfp : fp.length = 32 := h fp (by simp)
    have hrest : ∀ g ∈ fps, g.length = 32 := fun g hg => h g (by simp [hg])
    simp only [List.length_cons, List.flatten_cons, List.append_assoc, readChainFps]
    rw [copyN_append_of_length 32 fp _ hfp]
    dsimp only
    rw [ih hrest]

theorem marshalExtensions_length (leafIndex : Nat) :
    (marshalExtensions leafIndex).length = 8 := by
  simp [marshalExtensions, beBytes_length]

theorem parseExtensions_marshalExtensions (leafIndex : Nat) (h : leafIndex < 2 ^ 40) :
    parseExtensions (marshalExtensions leafIndex) = some leafIndex := by
  have h5 : (beBytes 5 leafIndex).length = 5 := beBytes_length 5 leafIndex
  have hread : readSized 2 (beBytes 2 5 ++ beBytes 5 leafIndex)
      = some (beBytes 5 leafIndex, []) := by
    have := readSized_roundtrip 2 (beBytes 5 leafIndex) [] (by rw [h5]; norm_num)
    simpa [h5] using this
  have h40 : readBE 5 (beBytes 5 leafIndex ++ []) = some (leafIndex, []) :=
    readBE_beBytes 5 leafIndex [] (by simpa using h)
  simp only [parseExtensions, marshalExtensions, List.cons_append, List.nil_append]
  simp only [readBE, readBEAux]
  simp only [Nat.zero_mul, Nat.zero_add, hread]
  simp only [readUint40]
  rw [List.append_nil] at h40
  simp [h40]

theorem uint64OfInt_eq_toNat (t : Int) (h0 : 0 ≤ t) (h1 : t < 2 ^ 63) :
    uint64OfInt t = t.toNat := by
  unfold uint64OfInt
  rw [Int.emod_eq_of_lt h0 (by omega)]

theorem uint64OfInt_lt (t : Int) (h0 : 0 ≤ t) (h1 : t < 2 ^ 63) :
    uint64OfInt t < 2 ^ 64 := by
  rw [uint64OfInt_eq_toNat t h0 h1]
  omega

theorem uint64OfInt_le_max (t : Int) (h0 : 0 ≤ t) (h1 : t < 2 ^ 63) :
    ¬ (2 ^ 63 - 1 < uint64OfInt t) := by
  rw [uint64OfInt_eq_toNat t h0 h1]
  omega

theorem uint64OfInt_cast (t : Int) (h0 : 0 ≤ t) (h1 : t < 2 ^ 63) :
    ((uint64OfInt t : Nat) : Int) = t := by
  rw [uint64OfInt_eq_toNat t h0 h1]
  omega

/-- A LogEntry exercising the decoder: empty certificate, one chain
fingerprint, and a `certificateFp` that differs from the first chain
fingerprint. -/
def fpMismatchEntry : LogEntry :=
  { certificate := [], isPrecert := false, issuerKeyHash := List.replicate 32 0,
    preCertificate := [], certificateFp := List.replicate 32 0,
    chainFp := [List.replicate 32 1], chain := [], timestamp := 0, leafIndex := 0 }

/-- C1 counterexample: the encode/decode round trip fails as stated.
`AppendTileLeaf` never writes `CertificateFp`, and `ReadTileLeaf`
reconstructs it as `ChainFp[0]`, so an entry whose `certificateFp` differs
from its first chain fingerprint decodes to a different entry. -/
theorem readTileLeaf_appendTileLeaf_not_roundtrip :
    (appendTileLeaf [] fpMismatchEntry).isSome = true ∧
    readTileLeaf ((appendTileLeaf [] fpMismatchEntry).getD []) ≠
      ReadResult.ok fpMismatchEntry [] := by
  decide

/-- C1 (amended): the round trip holds for every LogEntry that the encoder
can represent and the decoder can reconstruct: timestamp in `[0, 2^63)`,
u24-bounded certificate and pre-certificate, 32-byte hash fields, leaf
index below `2^40`, a nonempty fingerprint chain of fewer than `2^16`
fingerprints whose head equals `certificateFp`, an all-zero issuer key
hash and empty pre-certificate when not a precert, and an empty parsed
`chain` (which is never serialized). -/
theorem readTileLeaf_appendTileLeaf_roundtrip (e : LogEntry)
    (hts0 : 0 ≤ e.timestamp) (hts1 : e.timestamp < 2 ^ 63)
    (hcert : e.certificate.length < 2 ^ 24)
    (hikh : e.issuerKeyHash.length = 32)
    (hzero : e.isPrecert = false →
      e.issuerKeyHash = List.replicate 32 0 ∧ e.preCertificate = [])
    (hprelen : e.preCertificate.length < 2 ^ 24)
    (hidx : e.leafIndex < 2 ^ 40)
    (hfp0 : e.chainFp.head? = some e.certificateFp)
    (hfplen : e.chainFp.length < 2 ^ 16)
    (hfps : ∀ fp ∈ e.chainFp, fp.length = 32)
    (hchain : e.chain = []) :
    ∃ b, appendTileLeaf [] e = some b ∧ readTileLeaf b = ReadResult.ok e [] := by
  obtain ⟨cert, isP, ikh, pc, cfp, chfp, chn, ts, idx⟩ := e
  dsimp only at hts0 hts1 hcert hikh hzero hprelen hidx hfp0 hfplen hfps hchain
  subst hchain
  obtain ⟨fp0, fps, rfl⟩ : ∃ a l, chfp = a :: l := by
    cases chfp with
    | nil => simp at hfp0
    | cons a l => exact ⟨a, l, rfl⟩
  have hfp0eq : fp0 = cfp := by simpa using hfp0
  subst hfp0eq
  have hT64 : uint64OfInt ts < 256 ^ 8 := by
    have := uint64OfInt_lt ts hts0 hts1
    norm_num at this ⊢
    omega
  have hTmax : ¬ (2 ^ 63 - 1 < uint64OfInt ts) := uint64OfInt_le_max ts hts0 hts1
  have hTcast : ((uint64OfInt ts : Nat) : Int) = ts := uint64OfInt_cast ts hts0 hts1
  have hcert' : cert.length < 256 ^ 3 := by norm_num at hcert ⊢; omega
  have hfplen' : (fp0 :: fps).length < 256 ^ 2 := by norm_num at hfplen ⊢; omega
  have hrc : readChainFps (fp0 :: fps).length (fp0 :: fps).flatten
      = some (fp0 :: fps, []) := by
    have h := readChainFps_flatten (fp0 :: fps) [] hfps
    rwa [List.append_nil] at h
  cases isP with
  | false =>
    obtain ⟨hikh0, hpc0⟩ := hzero rfl
    subst hikh0; subst hpc0
    refine ⟨beBytes 8 (uint64OfInt ts) ++ (beBytes 2 0 ++
      (beBytes 3 cert.length ++ (cert ++ (addExtensions idx ++
        (beBytes 2 (fp0 :: fps).length ++ (fp0 :: fps).flatten))))), ?_, ?_⟩
    · simp only [appendTileLeaf]
      rw [if_neg (by omega)]
      rw [if_neg (by simp)]
      simp [List.append_assoc]
    · rw [readTileLeaf]
      rw [readBE_beBytes 8 _ _ hT64]
      dsimp only
      rw [readBE_beBytes 2 0 _ (by norm_num)]
      dsimp only
      rw [if_neg hTmax, if_pos rfl]
      rw [readSized_roundtrip 3 cert _ hcert']
      dsimp only
      simp only [addExtensions, List.append_assoc]
      rw [readSized_roundtrip 2 (marshalExtensions idx) _
        (by rw [marshalExtensions_length]; norm_num)]
      dsimp only
      rw [finishTileLeaf]
      rw [readBE_beBytes 2 _ _ hfplen']
      dsimp only
      rw [hrc]
      dsimp only
      rw [parseExtensions_marshalExtensions idx hidx]
      dsimp only
      rw [hTcast]
  | true =>
    refine ⟨beBytes 8 (uint64OfInt ts) ++ ((beBytes 2 1 ++ ikh) ++
      (beBytes 3 cert.length ++ (cert ++ (addExtensions idx ++
        ((beBytes 3 pc.length ++ pc) ++
          (beBytes 2 (fp0 :: fps).length ++ (fp0 :: fps).flatten)))))), ?_, ?_⟩
    · simp only [appendTileLeaf]
      rw [if_neg (by omega)]
      rw [if_neg (by simp; omega)]
      simp [List.append_assoc]
    · have hpre' : pc.length < 256 ^ 3 := by norm_num at hprelen ⊢; omega
      rw [readTileLeaf]
      rw [readBE_beBytes 8 _ _ hT64]
      dsimp only
      simp only [List.append_assoc]
      rw [readBE_beBytes 2 1 _ (by norm_num)]
      dsimp only
      rw [if_neg hTmax, if_neg (by norm_num), if_pos rfl]
      rw [copyN_append_of_length 32 ikh _ hikh]
      dsimp only
      rw [readSized_roundtrip 3 cert _ hcert']
      dsimp only
      simp only [addExtensions, List.append_assoc]
      rw [readSized_roundtrip 2 (marshalExtensions idx) _
        (by rw [marshalExtensions_length]; norm_num)]
      dsimp only
      rw [readSized_roundtrip 3 pc _ hpre']
      dsimp only
      rw [finishTileLeaf]
      rw [readBE_beBytes 2 _ _ hfplen']
      dsimp only
      rw [hrc]
      dsimp only
      rw [parseExtensions_marshalExtensions idx hidx]
      dsimp only
      rw [hTcast]

/-- A well-formed precert LogEntry used to exercise the amended round
trip at a concrete input. -/
def roundtripSample : LogEntry :=
  { certificate := [2, 3], isPrecert := true, issuerKeyHash := List.replicate 32 4,
    preCertificate := [5], certificateFp := List.replicate 32 1,
    chainFp := [List.replicate 32 1, List.replicate 32 6], chain := [],
    timestamp := 7, leafIndex := 9 }

/-- C1 witness: the amended round trip at the concrete `roundtripSample`. -/
theorem readTileLeaf_appendTileLeaf_roundtrip_witness :
    (0 ≤ roundtripSample.timestamp ∧ roundtripSample.timestamp < 2 ^ 63 ∧
      roundtripSample.certificate.length < 2 ^ 24 ∧
      roundtripSample.issuerKeyHash.length = 32 ∧
      roundtripSample.preCertificate.length < 2 ^ 24 ∧
      roundtripSample.leafIndex < 2 ^ 40 ∧
      roundtripSample.chainFp.head? = some roundtripSample.certificateFp ∧
      roundtripSample.chainFp.length < 2 ^ 16 ∧
      (∀ fp ∈ roundtripSample.chainFp, fp.length = 32) ∧
      roundtripSample.chain = []) ∧
    ∃ b, appendTileLeaf [] roundtripSample = some b ∧
      readTileLeaf b = ReadResult.ok roundtripSample [] :=
  ⟨by decide,
    readTileLeaf_appendTileLeaf_roundtrip roundtripSample (by decide) (by decide)
      (by decide) (by decide) (by decide) (by decide) (by decide) (by decide)
      (by decide) (by decide) (by decide)⟩

/-- C9: `ReadTileLeaf` panics rather than returning an error on a
structurally well-formed leaf whose fingerprint count is zero: seventeen
zero bytes parse as timestamp 0, entry type 0, an empty certificate, an
empty extensions block and fingerprint count 0, after which the Go code
evaluates `e.ChainFp[0]` on an empty slice — an index-out-of-range
runtime panic. -/
theorem readTileLeaf_panics_on_zero_fingerprintCount :
    readTileLeaf (List.replicate 17 0) = ReadResult.panic := by
  decide

/-! ## The auxiliary index engine (internal/ctsubmit/bucket.go) -/

/-- Little-endian encoding of `n mod 256^w` on exactly `w` bytes: the low
`w` bytes of `binary.LittleEndian.PutUint64`. -/
def leBytes : Nat → Nat → Bytes
  | 0, _ => []
  | w + 1, n => n % 256 :: leBytes w (n / 256)

/-- `RecordHashUpload` (bucket.go:51-55): a truncated leaf hash (a
`[16]byte` in Go) and a leaf index.  The Go `hashPath` field is routing
bookkeeping, not record content. -/
structure RecordHashUpload where
  hash : Bytes
  leafIndex : Nat
deriving DecidableEq, Repr

/-- `RecordHashUpload.ToBytes` (bucket.go:64-76): 16 hash bytes, then the
low five little-endian bytes of the leaf index. -/
def RecordHashUpload.toBytes (r : RecordHashUpload) : Bytes :=
  r.hash ++ leBytes 5 r.leafIndex

/-- `DedupeUpload` (bucket.go:188-193). -/
structure DedupeUpload where
  hash : Bytes
  leafIndex : Nat
  timestamp : Int
deriving DecidableEq, Repr

/-- `DedupeUpload.ToBytes` (bucket.go:203-217): 16 hash bytes, five
little-endian leaf-index bytes, eight little-endian timestamp bytes. -/
def DedupeUpload.toBytes (r : DedupeUpload) : Bytes :=
  r.hash ++ leBytes 5 r.leafIndex ++ leBytes 8 (uint64OfInt r.timestamp)

/-- `bytes.Compare(a, b) < 0`: lexicographic byte comparison with a strict
initial segment comparing less. -/
def bytesLt : Bytes → Bytes → Bool
  | [], [] => false
  | [], _ :: _ => true
  | _ :: _, [] => false
  | a :: as, b :: bs => if a < b then true else if b < a then false else bytesLt as bs

/-- The insertion-point scan of `PutRecordHashes` / `PutDedupeEntries`
(bucket.go:129-141): starting at record `i` with `n` records left to
examine, stop at the first record whose 16-byte key the new key compares
strictly below; `insertIndex` defaults to the record count.  There is no
equal-key test, so a present key is passed over, never skipped. -/
def findInsertIndexGo (recordSize : Nat) (key records : Bytes) : Nat → Nat → Nat
  | i, 0 => i
  | i, n + 1 =>
    if bytesLt key ((records.drop (i * recordSize)).take 16) then i
    else findInsertIndexGo recordSize key records (i + 1) n

def findInsertIndex (recordSize : Nat) (key records : Bytes) : Nat :=
  findInsertIndexGo recordSize key records 0 (records.length / recordSize)

/-- One insertion of `PutRecordHashes` / `PutDedupeEntries`
(bucket.go:126-150): find the insertion point, then build the new file as
prefix, record, suffix — the Go code fills a fresh buffer of
`len(records) + recordSize` bytes with three copies, which is exactly this
splice at the record boundary. -/
def insertRecordBytes (recordSize : Nat) (key recBytes records : Bytes) : Bytes :=
  records.take (findInsertIndex recordSize key records * recordSize)
    ++ recBytes
    ++ records.drop (findInsertIndex recordSize key records * recordSize)

/-- Effect of `Bucket.PutRecordHashes` (bucket.go:96-164) on one index
file: the uploads routed (by `KAnonHashPath` of their hash) to this file
are merge-inserted in turn, in slice order. -/
def putRecordHashesFile (file : Bytes) (hashes : List RecordHashUpload) : Bytes :=
  hashes.foldl (fun records e => insertRecordBytes 21 e.hash e.toBytes records) file

/-- Effect of `Bucket.PutDedupeEntries` (bucket.go:237-305) on one index
file. -/
def putDedupeEntriesFile (file : Bytes) (hashes : List DedupeUpload) : Bytes :=
  hashes.foldl (fun records e => insertRecordBytes 29 e.hash e.toBytes records) file

theorem leBytes_length (w n : Nat) : (leBytes w n).length = w := by
  induction w generalizing n with
  | zero => rfl
  | succ w ih => simp [leBytes, ih]

theorem insertRecordBytes_length (recordSize : Nat) (key recBytes records : Bytes) :
    (insertRecordBytes recordSize key recBytes records).length
      = records.length + recBytes.length := by
  simp [insertRecordBytes]
  omega

/-- One concrete record-hash index file holding a single record with key
`7,...,7`. -/
def oneRecordFile : Bytes := (RecordHashUpload.mk (List.replicate 16 7) 0).toBytes

/-- One concrete dedupe index file holding a single record with key
`7,...,7`. -/
def oneDedupeFile : Bytes := (DedupeUpload.mk (List.replicate 16 7) 0 3).toBytes

/-- C2 counterexample: inserting a record whose truncated key is already
present does not leave the file unchanged — both engines append a second
record instead of detecting and skipping the existing key. -/
theorem putFile_existing_key_not_skipped :
    putRecordHashesFile oneRecordFile [⟨List.replicate 16 7, 5⟩] ≠ oneRecordFile ∧
    putDedupeEntriesFile oneDedupeFile [⟨List.replicate 16 7, 5, 11⟩] ≠ oneDedupeFile := by
  decide

/-- C2 (amended): the insert loops of `PutRecordHashes` and
`PutDedupeEntries` perform no duplicate detection at all: every upload
grows its file by exactly one record (21 or 29 bytes), whether or not its
truncated key is already present. -/
theorem putFile_always_grows (file dfile : Bytes)
    (hs : List RecordHashUpload) (ds : List DedupeUpload)
    (hh : ∀ e ∈ hs, e.hash.length = 16) (hd : ∀ e ∈ ds, e.hash.length = 16) :
    (putRecordHashesFile file hs).length = file.length + 21 * hs.length ∧
    (putDedupeEntriesFile dfile ds).length = dfile.length + 29 * ds.length := by
  constructor
  · induction hs generalizing file with
    | nil => simp [putRecordHashesFile]
    | cons e es ih =>
      have he : e.hash.length = 16 := hh e (by simp)
      have hrec : e.toBytes.length = 21 := by
        simp [RecordHashUpload.toBytes, leBytes_length, he]
      have hrest : ∀ x ∈ es, x.hash.length = 16 := fun x hx => hh x (by simp [hx])
      have step := insertRecordBytes_length 21 e.hash e.toBytes file
      simp only [putRecordHashesFile, List.foldl_cons] at *
      rw [ih _ hrest]
      rw [step, hrec]
      simp [List.length_cons]
      ring
  · induction ds generalizing dfile with
    | nil => simp [putDedupeEntriesFile]
    | cons e es ih =>
      have he : e.hash.length = 16 := hd e (by simp)
      have hrec : e.toBytes.length = 29 := by
        simp [DedupeUpload.toBytes, leBytes_length, he]
      have hrest : ∀ x ∈ es, x.hash.length = 16 := fun x hx => hd x (by simp [hx])
      have step := insertRecordBytes_length 29 e.hash e.toBytes dfile
      simp only [putDedupeEntriesFile, List.foldl_cons] at *
      rw [ih _ hrest]
      rw [step, hrec]
      simp [List.length_cons]
      ring

/-- C2 witness: the amended growth law at the concrete one-record files,
inserting a key that is already present in each. -/
theorem putFile_always_grows_witness :
    ((∀ e ∈ [RecordHashUpload.mk (List.replicate 16 7) 5], e.hash.length = 16) ∧
      (∀ e ∈ [DedupeUpload.mk (List.replicate 16 7) 5 11], e.hash.length = 16)) ∧
    ((putRecordHashesFile oneRecordFile [⟨List.replicate 16 7, 5⟩]).length
        = oneRecordFile.length + 21 * 1 ∧
      (putDedupeEntriesFile oneDedupeFile [⟨List.replicate 16 7, 5, 11⟩]).length
        = oneDedupeFile.length + 29 * 1) :=
  ⟨⟨by decide, by decide⟩, by
    have h := putFile_always_grows oneRecordFile oneDedupeFile
      [⟨List.replicate 16 7, 5⟩] [⟨List.replicate 16 7, 5, 11⟩]
      (by decide) (by decide)
    simpa using h⟩

/-- The records of an index file as `n` consecutive `recordSize`-byte
chunks. -/
def chunksN (recordSize : Nat) : Nat → Bytes → List Bytes
  | 0, _ => []
  | n + 1, file => file.take recordSize :: chunksN recordSize n (file.drop recordSize)

/-- All records of an index file. -/
def chunks (recordSize : Nat) (file : Bytes) : List Bytes :=
  chunksN recordSize (file.length / recordSize) file

/-- The truncated keys of an index file, one per record. -/
def recordKeys (recordSize : Nat) (file : Bytes) : List Bytes :=
  (chunks recordSize file).map (fun c => c.take 16)

/-- The file is a whole number of fixed-width records. -/
def sizeOK (recordSize : Nat) (file : Bytes) : Prop :=
  file.length % recordSize = 0

/-- Boolean check that adjacent elements strictly increase in
byte-lexicographic order. -/
def chainLtB : List Bytes → Bool
  | [] => true
  | [_] => true
  | a :: b :: l => bytesLt a b && chainLtB (b :: l)

/-- Strictly sorted by truncated key: adjacent keys strictly increase in
byte-lexicographic order. -/
def strictlySorted (recordSize : Nat) (file : Bytes) : Prop :=
  chainLtB (recordKeys recordSize file) = true

instance (recordSize : Nat) (file : Bytes) : Decidable (sizeOK recordSize file) :=
  inferInstanceAs (Decidable (file.length % recordSize = 0))

instance (recordSize : Nat) (file : Bytes) : Decidable (strictlySorted recordSize file) :=
  inferInstanceAs (Decidable (chainLtB (recordKeys recordSize file) = true))

theorem chainLtB_iff_chain' (l : List Bytes) :
    chainLtB l = true ↔ l.Chain' (fun a b => bytesLt a b = true) := by
  induction l with
  | nil => simp [chainLtB]
  | cons a l ih =>
    cases l with
    | nil => simp [chainLtB]
    | cons b m =>
      rw [List.chain'_cons]
      simp only [chainLtB, Bool.and_eq_true]
      rw [ih]

theorem chunksN_flatten (recordSize : Nat) :
    ∀ (n : Nat) (file : Bytes), file.length = n * recordSize →
      (chunksN recordSize n file).flatten = file := by
  intro n
  induction n with
  | zero =>
    intro file h
    simp at h
    simp [chunksN, h]
  | succ n ih =>
    intro file h
    rw [Nat.succ_mul] at h
    have hlen : (file.drop recordSize).length = n * recordSize := by
      simp [List.length_drop]
      omega
    simp [chunksN, ih _ hlen, List.take_append_drop]

theorem chunksN_mem_length (recordSize : Nat) :
    ∀ (n : Nat) (file c : Bytes), file.length = n * recordSize →
      c ∈ chunksN recordSize n file → c.length = recordSize := by
  intro n
  induction n with
  | zero => intro file c h hc; simp [chunksN] at hc
  | succ n ih =>
    intro file c h hc
    rw [Nat.succ_mul] at h
    simp only [chunksN, List.mem_cons] at hc
    rcases hc with rfl | hc
    · simp [List.length_take]
      omega
    · exact ih _ c (by simp [List.length_drop]; omega) hc

theorem flatten_length_const (recordSize : Nat) :
    ∀ (l : List Bytes), (∀ c ∈ l, c.length = recordSize) →
      l.flatten.length = l.length * recordSize := by
  intro l
  induction l with
  | nil => intro _; simp
  | cons c cs ih =>
    intro h
    have hc := h c (by simp)
    have hcs := ih (fun x hx => h x (by simp [hx]))
    simp [List.flatten_cons, hc, hcs, Nat.succ_mul]
    omega

theorem chunks_flatten (recordSize : Nat) (hrs : 0 < recordSize) :
    ∀ (l : List Bytes), (∀ c ∈ l, c.length = recordSize) →
      chunks recordSize l.flatten = l := by
  intro l
  induction l with
  | nil => intro _; simp [chunks, chunksN]
  | cons c cs ih =>
    intro hall
    have hc : c.length = recordSize := hall c (by simp)
    have hcs : ∀ x ∈ cs, x.length = recordSize := fun x hx => hall x (by simp [hx])
    have hdiv : (c :: cs).flatten.length / recordSize = cs.length + 1 := by
      rw [flatten_length_const recordSize _ hall]
      simp [Nat.mul_div_cancel _ hrs]
    unfold chunks
    rw [hdiv]
    simp only [chunksN, List.flatten_cons]
    rw [List.take_left' hc, List.drop_left' hc]
    have hrest := ih hcs
    unfold chunks at hrest
    have hlen2 : cs.flatten.length / recordSize = cs.length := by
      rw [flatten_length_const recordSize cs hcs, Nat.mul_div_cancel _ hrs]
    rw [hlen2] at hrest
    rw [hrest]


/-- Record-level view of one splice insert: the new record goes
immediately before the first record whose key the new key compares
strictly below. -/
def insertRecChunks (key rec : Bytes) : List Bytes → List Bytes
  | [] => [rec]
  | c :: cs =>
    if bytesLt key (c.take 16) then rec :: c :: cs
    else c :: insertRecChunks key rec cs

theorem findInsertIndexGo_shift (recordSize : Nat) (key file : Bytes) :
    ∀ (n i : Nat),
      findInsertIndexGo recordSize key file (i + 1) n
        = findInsertIndexGo recordSize key (file.drop recordSize) i n + 1 := by
  intro n
  induction n with
  | zero => intro i; rfl
  | succ n ih =>
    intro i
    have hkey : (file.drop ((i + 1) * recordSize)).take 16
        = ((file.drop recordSize).drop (i * recordSize)).take 16 := by
      rw [List.drop_drop]
      congr 2
      ring
    simp only [findInsertIndexGo, hkey]
    split_ifs with h
    · rfl
    · exact ih (i + 1)

theorem insertRecordBytes_eq_chunks (recordSize : Nat) (h16 : 16 ≤ recordSize)
    (key rec : Bytes) :
    ∀ (n : Nat) (file : Bytes), file.length = n * recordSize →
      insertRecordBytes recordSize key rec file
        = (insertRecChunks key rec (chunksN recordSize n file)).flatten := by
  have hrs : 0 < recordSize := by omega
  intro n
  induction n with
  | zero =>
    intro file h
    simp at h
    subst h
    simp [insertRecordBytes, findInsertIndex, findInsertIndexGo, chunksN, insertRecChunks]
  | succ n ih =>
    intro file h
    have hdiv : file.length / recordSize = n + 1 := by
      rw [h, Nat.mul_div_cancel _ hrs]
    have htail : (file.drop recordSize).length = n * recordSize := by
      rw [Nat.succ_mul] at h
      simp [List.length_drop]
      omega
    have hheadkey : (file.drop (0 * recordSize)).take 16 = (file.take recordSize).take 16 := by
      rw [List.take_take]
      simp [Nat.min_eq_left h16]
    unfold insertRecordBytes findInsertIndex
    rw [hdiv]
    simp only [findInsertIndexGo, hheadkey]
    by_cases hlt : bytesLt key ((file.take recordSize).take 16) = true
    · simp only [hlt, if_true]
      simp only [chunksN, insertRecChunks, hlt, if_true]
      simp [chunksN_flatten recordSize n (file.drop recordSize) htail,
        List.take_append_drop]
    · rw [if_neg hlt]
      rw [findInsertIndexGo_shift]
      have hdivtail : (file.drop recordSize).length / recordSize = n := by
        rw [htail, Nat.mul_div_cancel _ hrs]
      have ihres := ih (file.drop recordSize) htail
      unfold insertRecordBytes findInsertIndex at ihres
      rw [hdivtail] at ihres
      set j := findInsertIndexGo recordSize key (file.drop recordSize) 0 n with hj
      have htake : file.take ((j + 1) * recordSize)
          = file.take recordSize ++ (file.drop recordSize).take (j * recordSize) := by
        have hsum : (j + 1) * recordSize = recordSize + j * recordSize := by ring
        rw [hsum, List.take_add]
      have hdrop : file.drop ((j + 1) * recordSize)
          = (file.drop recordSize).drop (j * recordSize) := by
        rw [List.drop_drop]
        congr 1
        ring
      rw [htake, hdrop]
      simp only [chunksN, insertRecChunks]
      rw [if_neg hlt]
      rw [List.flatten_cons, ← ihres]
      simp [List.append_assoc]


theorem bytesLt_total (a : Bytes) : ∀ b : Bytes,
    a = b ∨ bytesLt a b = true ∨ bytesLt b a = true := by
  induction a with
  | nil =>
    intro b
    cases b with
    | nil => left; rfl
    | cons x xs => right; left; rfl
  | cons x xs ih =>
    intro b
    cases b with
    | nil => right; right; rfl
    | cons y ys =>
      rcases Nat.lt_trichotomy x y with hxy | hxy | hxy
      · right; left; simp [bytesLt, hxy]
      · subst hxy
        rcases ih ys with h | h | h
        · left; rw [h]
        · right; left; simp [bytesLt, h]
        · right; right; simp [bytesLt, h]
      · right; right; simp [bytesLt, hxy]

theorem insertRecChunks_perm (key rec : Bytes) :
    ∀ l : List Bytes, (insertRecChunks key rec l).Perm (rec :: l) := by
  intro l
  induction l with
  | nil => simp [insertRecChunks]
  | cons c cs ih =>
    simp only [insertRecChunks]
    split_ifs
    · exact List.Perm.refl _
    · exact (ih.cons c).trans (List.Perm.swap rec c cs)

theorem mem_insertRecChunks (key rec c : Bytes) (l : List Bytes) :
    c ∈ insertRecChunks key rec l ↔ c = rec ∨ c ∈ l := by
  rw [(insertRecChunks_perm key rec l).mem_iff]
  simp

theorem chain'_insertRecChunks (key rec : Bytes) (l : List Bytes)
    (hrec : rec.take 16 = key)
    (hfresh : ∀ c ∈ l, c.take 16 ≠ key)
    (hsorted : (l.map (fun c => c.take 16)).Chain' (fun a b => bytesLt a b = true)) :
    ((insertRecChunks key rec l).map (fun c => c.take 16)).Chain'
      (fun a b => bytesLt a b = true) := by
  induction l with
  | nil => simp [insertRecChunks]
  | cons c cs ih =>
    have hcfresh : c.take 16 ≠ key := hfresh c (by simp)
    have hcs : ∀ x ∈ cs, x.take 16 ≠ key := fun x hx => hfresh x (by simp [hx])
    simp only [List.map_cons, List.chain'_cons'] at hsorted
    simp only [insertRecChunks]
    split_ifs with hlt
    · simp only [List.map_cons, List.chain'_cons]
      refine ⟨?_, ?_⟩
      · rw [hrec]; exact hlt
      · rw [List.chain'_cons']
        exact hsorted
    · have hgt : bytesLt (c.take 16) key = true := by
        rcases bytesLt_total (c.take 16) key with h | h | h
        · exact absurd h hcfresh
        · exact h
        · exact absurd h hlt
      simp only [List.map_cons, List.chain'_cons']
      refine ⟨?_, ih hcs hsorted.2⟩
      intro y hy
      cases cs with
      | nil =>
        simp [insertRecChunks, hrec] at hy
        subst hy
        exact hgt
      | cons d ds =>
        simp only [insertRecChunks] at hy
        split_ifs at hy with hlt2
        · simp [hrec] at hy
          subst hy
          exact hgt
        · simp at hy
          subst hy
          exact hsorted.1 (d.take 16) (by simp)


theorem insertRecordBytes_invariant (recordSize : Nat) (h16 : 16 ≤ recordSize)
    (key rec file : Bytes) (hrl : rec.length = recordSize) (hrk : rec.take 16 = key)
    (hsize : sizeOK recordSize file) (hsorted : strictlySorted recordSize file)
    (hfresh : key ∉ recordKeys recordSize file) :
    sizeOK recordSize (insertRecordBytes recordSize key rec file) ∧
    strictlySorted recordSize (insertRecordBytes recordSize key rec file) ∧
    ∀ k, k ∈ recordKeys recordSize (insertRecordBytes recordSize key rec file) ↔
      k = key ∨ k ∈ recordKeys recordSize file := by
  have hrs : 0 < recordSize := by omega
  have hn : file.length = (file.length / recordSize) * recordSize :=
    (Nat.div_mul_cancel (Nat.dvd_of_mod_eq_zero hsize)).symm
  have heq := insertRecordBytes_eq_chunks recordSize h16 key rec
    (file.length / recordSize) file hn
  have hchunks_all : ∀ c ∈ chunksN recordSize (file.length / recordSize) file,
      c.length = recordSize :=
    fun c hc => chunksN_mem_length recordSize _ file c hn hc
  have hins_all : ∀ c ∈ insertRecChunks key rec
      (chunksN recordSize (file.length / recordSize) file), c.length = recordSize := by
    intro c hc
    rcases (mem_insertRecChunks key rec c _).1 hc with rfl | hc
    · exact hrl
    · exact hchunks_all c hc
  have hchunks_new : chunks recordSize (insertRecordBytes recordSize key rec file)
      = insertRecChunks key rec (chunksN recordSize (file.length / recordSize) file) := by
    rw [heq]
    exact chunks_flatten recordSize hrs _ hins_all
  have hkeys_old : recordKeys recordSize file
      = (chunksN recordSize (file.length / recordSize) file).map (fun c => c.take 16) := rfl
  have hfresh2 : ∀ c ∈ chunksN recordSize (file.length / recordSize) file,
      c.take 16 ≠ key := by
    intro c hc hck
    refine hfresh ?_
    rw [hkeys_old, ← hck]
    exact List.mem_map_of_mem _ hc
  refine ⟨?_, ?_, ?_⟩
  · unfold sizeOK at hsize ⊢
    rw [insertRecordBytes_length, hrl, Nat.add_mod_right]
    exact hsize
  · unfold strictlySorted recordKeys
    rw [hchunks_new]
    rw [chainLtB_iff_chain']
    refine chain'_insertRecChunks key rec _ hrk hfresh2 ?_
    rw [← chainLtB_iff_chain']
    exact hsorted
  · intro k
    unfold recordKeys
    rw [hchunks_new]
    rw [List.Perm.mem_iff ((insertRecChunks_perm key rec _).map (fun c => c.take 16))]
    simp [chunks, hrk, eq_comm]

theorem foldInsert_invariant (recordSize : Nat) (h16 : 16 ≤ recordSize) :
    ∀ (recs : List (Bytes × Bytes)) (file : Bytes),
      (∀ kr ∈ recs, kr.2.length = recordSize ∧ kr.2.take 16 = kr.1) →
      (∀ kr ∈ recs, kr.1 ∉ recordKeys recordSize file) →
      (recs.map Prod.fst).Nodup →
      sizeOK recordSize file → strictlySorted recordSize file →
      sizeOK recordSize (recs.foldl
        (fun records kr => insertRecordBytes recordSize kr.1 kr.2 records) file) ∧
      strictlySorted recordSize (recs.foldl
        (fun records kr => insertRecordBytes recordSize kr.1 kr.2 records) file) := by
  intro recs
  induction recs with
  | nil =>
    intro file _ _ _ hsize hsorted
    exact ⟨hsize, hsorted⟩
  | cons kr recs ih =>
    intro file hwf hfresh hnodup hsize hsorted
    obtain ⟨hl, hk⟩ := hwf kr (by simp)
    have hfr : kr.1 ∉ recordKeys recordSize file := hfresh kr (by simp)
    obtain ⟨hs1, hs2, hmem⟩ :=
      insertRecordBytes_invariant recordSize h16 kr.1 kr.2 file hl hk hsize hsorted hfr
    simp only [List.map_cons, List.nodup_cons] at hnodup
    simp only [List.foldl_cons]
    refine ih _ (fun x hx => hwf x (by simp [hx])) ?_ hnodup.2 hs1 hs2
    intro x hx hxk
    rw [hmem x.1] at hxk
    rcases hxk with hxk | hxk
    · exact hnodup.1 (hxk ▸ List.mem_map_of_mem Prod.fst hx)
    · exact hfresh x (by simp [hx]) hxk

/-- C8 counterexample: inserting a record whose truncated key is already
present in a file satisfying the invariant yields a file that is no longer
strictly sorted — the duplicate key sits next to the original. -/
theorem putFile_duplicate_breaks_strict_sortedness :
    sizeOK 21 oneRecordFile ∧ strictlySorted 21 oneRecordFile ∧
    ¬ strictlySorted 21 (putRecordHashesFile oneRecordFile [⟨List.replicate 16 7, 5⟩]) := by
  decide

/-- C8 (amended): index files are a whole number of fixed-width records
(21 bytes for record-hash, 29 for dedupe) and strictly sorted by truncated
key; `PutRecordHashes` and `PutDedupeEntries` preserve both invariants
provided the inserted truncated keys are pairwise distinct and not already
present in the file (inserting a present key preserves the record-width
invariant but produces adjacent duplicate keys, breaking strictness). -/
theorem putFile_preserves_index_invariant
    (file dfile : Bytes) (hs : List RecordHashUpload) (ds : List DedupeUpload)
    (hsize : sizeOK 21 file) (hsorted : strictlySorted 21 file)
    (hdsize : sizeOK 29 dfile) (hdsorted : strictlySorted 29 dfile)
    (hh : ∀ e ∈ hs, e.hash.length = 16)
    (hd : ∀ e ∈ ds, e.hash.length = 16)
    (hfresh : ∀ e ∈ hs, e.hash ∉ recordKeys 21 file)
    (hdfresh : ∀ e ∈ ds, e.hash ∉ recordKeys 29 dfile)
    (hnodup : (hs.map RecordHashUpload.hash).Nodup)
    (hdnodup : (ds.map DedupeUpload.hash).Nodup) :
    (sizeOK 21 (putRecordHashesFile file hs) ∧
      strictlySorted 21 (putRecordHashesFile file hs)) ∧
    (sizeOK 29 (putDedupeEntriesFile dfile ds) ∧
      strictlySorted 29 (putDedupeEntriesFile dfile ds)) := by
  constructor
  · have hbridge : putRecordHashesFile file hs
        = (hs.map (fun e => (e.hash, e.toBytes))).foldl
            (fun records kr => insertRecordBytes 21 kr.1 kr.2 records) file := by
      rw [List.foldl_map]
      rfl
    rw [hbridge]
    refine foldInsert_invariant 21 (by norm_num) _ file ?_ ?_ ?_ hsize hsorted
    · intro kr hkr
      simp only [List.mem_map] at hkr
      obtain ⟨e, he, rfl⟩ := hkr
      have h16e := hh e he
      refine ⟨?_, ?_⟩
      · simp [RecordHashUpload.toBytes, leBytes_length, h16e]
      · simp [RecordHashUpload.toBytes, List.take_left' h16e]
    · intro kr hkr
      simp only [List.mem_map] at hkr
      obtain ⟨e, he, rfl⟩ := hkr
      exact hfresh e he
    · simpa [List.map_map, Function.comp] using hnodup
  · have hbridge : putDedupeEntriesFile dfile ds
        = (ds.map (fun e => (e.hash, e.toBytes))).foldl
            (fun records kr => insertRecordBytes 29 kr.1 kr.2 records) dfile := by
      rw [List.foldl_map]
      rfl
    rw [hbridge]
    refine foldInsert_invariant 29 (by norm_num) _ dfile ?_ ?_ ?_ hdsize hdsorted
    · intro kr hkr
      simp only [List.mem_map] at hkr
      obtain ⟨e, he, rfl⟩ := hkr
      have h16e := hd e he
      refine ⟨?_, ?_⟩
      · simp [DedupeUpload.toBytes, leBytes_length, h16e]
      · simp [DedupeUpload.toBytes, List.append_assoc, List.take_left' h16e]
    · intro kr hkr
      simp only [List.mem_map] at hkr
      obtain ⟨e, he, rfl⟩ := hkr
      exact hdfresh e he
    · simpa [List.map_map, Function.comp] using hdnodup

/-- C8 witness: both invariants hold after inserting a fresh key into each
concrete one-record file. -/
theorem putFile_preserves_index_invariant_witness :
    (sizeOK 21 oneRecordFile ∧ strictlySorted 21 oneRecordFile ∧
      sizeOK 29 oneDedupeFile ∧ strictlySorted 29 oneDedupeFile ∧
      (∀ e ∈ [RecordHashUpload.mk (List.replicate 16 9) 4], e.hash.length = 16) ∧
      (∀ e ∈ [DedupeUpload.mk (List.replicate 16 9) 4 5], e.hash.length = 16) ∧
      (∀ e ∈ [RecordHashUpload.mk (List.replicate 16 9) 4],
        e.hash ∉ recordKeys 21 oneRecordFile) ∧
      (∀ e ∈ [DedupeUpload.mk (List.replicate 16 9) 4 5],
        e.hash ∉ recordKeys 29 oneDedupeFile)) ∧
    ((sizeOK 21 (putRecordHashesFile oneRecordFile [⟨List.replicate 16 9, 4⟩]) ∧
      strictlySorted 21 (putRecordHashesFile oneRecordFile [⟨List.replicate 16 9, 4⟩])) ∧
    (sizeOK 29 (putDedupeEntriesFile oneDedupeFile [⟨List.replicate 16 9, 4, 5⟩]) ∧
      strictlySorted 29 (putDedupeEntriesFile oneDedupeFile [⟨List.replicate 16 9, 4, 5⟩]))) :=
  ⟨by decide,
    putFile_preserves_index_invariant oneRecordFile oneDedupeFile
      [⟨List.replicate 16 9, 4⟩] [⟨List.replicate 16 9, 4, 5⟩]
      (by decide) (by decide) (by decide) (by decide) (by decide) (by decide)
      (by decide) (by decide) (by decide) (by decide)⟩


/-! ## The sequencer pipeline (internal/ctsubmit/logic.go) -/

/-- The flush-interval branch of `stageOne` (logic.go:254-266): when the
timer fires, the pool is copied and sent to stage two only if it is
nonempty; the pool is then reset.  Returns the batch sent (if any) and the
pool afterwards. -/
def stageOneTimerFlush (pool : List LogEntry) : Option (List LogEntry) × List LogEntry :=
  if pool.length > 0 then (some pool, []) else (none, pool)

/-- The batch-size computation of `stageTwo` (logic.go:288-292):
`oldTreeSize = pool[0].LeafIndex` and `newTreeSize = pool[last].LeafIndex + 1`.
Indexing `pool[0]` of an empty batch is a Go runtime panic, modelled as
`none`. -/
def stageTwoTreeSizes (pool : List LogEntry) : Option (Nat × Nat) :=
  match pool.head?, pool.getLast? with
  | some first, some last => some (first.leafIndex, last.leafIndex + 1)
  | _, _ => none

/-- C3 counterexample: a flush interval elapsing with an empty pool sends
no batch at all (the timer branch is guarded by `len(pool) > 0`), and
stage two cannot handle an empty batch — `pool[0]` would panic instead of
yielding `new_size = old_size`. -/
theorem stageOne_empty_interval_sends_nothing :
    (stageOneTimerFlush []).1 = none ∧ stageTwoTreeSizes [] = none := by
  decide

/-- C3 (amended): a flush interval elapsing with a nonempty pool sends
exactly the pooled entries as one batch and resets the pool, and stage
two computes `old_size = batch[0].leaf_index` and
`new_size = last.leaf_index + 1` for every nonempty batch; an empty
interval sends nothing (so no empty-batch STH refresh exists), and an
empty batch would panic in stage two. -/
theorem stageOne_nonempty_flush_batches (pool : List LogEntry)
    (first last : LogEntry) (hh : pool.head? = some first)
    (hl : pool.getLast? = some last) :
    stageOneTimerFlush pool = (some pool, []) ∧
    stageTwoTreeSizes pool = some (first.leafIndex, last.leafIndex + 1) := by
  constructor
  · have : pool.length > 0 := by
      cases pool with
      | nil => simp at hh
      | cons a l => simp
    simp [stageOneTimerFlush, this]
  · simp [stageTwoTreeSizes, hh, hl]

/-- A concrete one-entry pool exercising the nonempty flush path. -/
def samplePoolEntry : LogEntry :=
  { certificate := [1], isPrecert := false, issuerKeyHash := List.replicate 32 0,
    preCertificate := [], certificateFp := List.replicate 32 2,
    chainFp := [List.replicate 32 2], chain := [], timestamp := 3, leafIndex := 12 }

/-- C3 witness: the amended flush behaviour at a concrete one-entry pool. -/
theorem stageOne_nonempty_flush_batches_witness :
    ([samplePoolEntry].head? = some samplePoolEntry ∧
      [samplePoolEntry].getLast? = some samplePoolEntry) ∧
    (stageOneTimerFlush [samplePoolEntry] = (some [samplePoolEntry], []) ∧
      stageTwoTreeSizes [samplePoolEntry] = some (12, 13)) :=
  ⟨⟨by decide, by decide⟩, by
    have h := stageOne_nonempty_flush_batches [samplePoolEntry]
      samplePoolEntry samplePoolEntry (by decide) (by decide)
    simpa [samplePoolEntry] using h⟩

/-- Outcome of stage zero's wait on the return channel. -/
inductive StageZeroAwait where
  | received (entry : LogEntry)
deriving DecidableEq, Repr

/-- The sequencer-wait step of `stageZero` (logic.go:169-180): after
handing the entry to stage one, the code executes
`completeEntry = <-returnPath` with no `select` and no timer (the comment
`TODO: Add a timeout with select` marks the omission), so the receive
completes with the entry whenever the reply arrives — the arrival time, in
milliseconds since the hand-off, does not influence the outcome, and no
branch can produce an HTTP 503. -/
def stageZeroAwaitReply (_arrivalMs : Nat) (entry : LogEntry) : StageZeroAwait :=
  .received entry

/-- Modelled from the spec: outcome of the stage-zero wait as specified —
"await its resulting LogEntry with a 5 s timeout. Timeout → SequencerBusy
(HTTP 503 with Retry-After 30–90 s jitter)". -/
inductive SpecAwait where
  | received (entry : LogEntry)
  | sequencerBusy503
deriving DecidableEq, Repr

/-- Modelled from the spec: the wait succeeds only if the reply arrives
within 5000 ms; otherwise the request fails as SequencerBusy. -/
def specStageZeroAwaitReply (arrivalMs : Nat) (entry : LogEntry) : SpecAwait :=
  if arrivalMs ≤ 5000 then .received entry else .sequencerBusy503

/-- The `Retry-After` header value attached by `stageZeroWrapper`
(logic.go:57-59) to a 503 response: `30 + rand.Intn(60)` for a random
draw `r`. -/
def retryAfterSeconds (r : Nat) : Nat := 30 + r % 60

/-- C4: evaluation at the failing input.  A reply that arrives 6000 ms
after the hand-off (past the claimed 5-second timeout) is still received
by stage zero — the embedded wait has no timeout branch, so no
SequencerBusy 503 is produced, contrary to the spec-modelled wait.  (The
wrapper would attach a Retry-After of 30-89 s to a 503, but stage zero
never returns one from this path.) -/
theorem stageZeroAwait_no_timeout :
    stageZeroAwaitReply 6000 samplePoolEntry = StageZeroAwait.received samplePoolEntry ∧
    specStageZeroAwaitReply 6000 samplePoolEntry = SpecAwait.sequencerBusy503 ∧
    30 ≤ retryAfterSeconds 45 ∧ retryAfterSeconds 45 ≤ 90 := by
  decide

/-- A parsed certificate as stage zero consumes it: raw DER, raw TBS
bytes, raw SubjectPublicKeyInfo, and whether `ct.IsPreIssuer` holds (the
CT pre-cert-signing EKU). -/
structure Cert where
  raw : Bytes
  rawTBSCertificate : Bytes
  rawSubjectPublicKeyInfo : Bytes
  isPreIssuer : Bool
deriving DecidableEq, Repr

/-- `sunlight.UnsequencedEntry` (tile_ol.go:28-57), chain kept as raw
DER. -/
structure UnsequencedEntry where
  certificate : Bytes
  isPrecert : Bool
  issuerKeyHash : Bytes
  preCertificate : Bytes
  certificateFp : Bytes
  chainFp : List Bytes
deriving DecidableEq, Repr

/-- The precert branch of `stageZero` (logic.go:118-146).  `sha256` and
`x509.BuildPrecertTBS` are external library functions and are passed as
parameters.  The code indexes `chain[1]`, so a chain of fewer than two
certificates is `none`; note that `IssuerKeyHash` is always the hash of
`chain[1]`'s SubjectPublicKeyInfo, whether or not `chain[1]` is a
pre-issuer. -/
def stageZeroPrecertEntry (sha256 : Bytes → Bytes)
    (buildPrecertTBS : Bytes → Option Cert → Bytes)
    (chain : List Cert) : Option UnsequencedEntry :=
  match chain with
  | leaf :: issuer :: _ =>
    some { certificate := buildPrecertTBS leaf.rawTBSCertificate
             (if issuer.isPreIssuer then some issuer else none),
           isPrecert := true,
           issuerKeyHash := sha256 issuer.rawSubjectPublicKeyInfo,
           preCertificate := leaf.raw,
           certificateFp := sha256 leaf.raw,
           chainFp := (chain.drop 1).map (fun c => sha256 c.raw) }
  | _ => none

/-- Modelled from the spec: "if `chain[1]` is a pre-issuer (EKU
ctPrecertSigning), `issuer = chain[2]` else `issuer = chain[1]`; ... set
`issuer_key_hash = SHA-256(issuer.SubjectPublicKeyInfo)`". -/
def specPrecertIssuerKeyHash (sha256 : Bytes → Bytes) (chain : List Cert) : Option Bytes :=
  match chain with
  | _ :: second :: rest =>
    if second.isPreIssuer then
      match rest with
      | third :: _ => some (sha256 third.rawSubjectPublicKeyInfo)
      | [] => none
    else some (sha256 second.rawSubjectPublicKeyInfo)
  | _ => none

/-- A three-certificate precert chain whose second element is a
pre-issuer; the SPKIs of the second and third certificates differ. -/
def preIssuerChain : List Cert :=
  [{ raw := [1], rawTBSCertificate := [2], rawSubjectPublicKeyInfo := [3], isPreIssuer := false },
   { raw := [4], rawTBSCertificate := [5], rawSubjectPublicKeyInfo := [6], isPreIssuer := true },
   { raw := [7], rawTBSCertificate := [8], rawSubjectPublicKeyInfo := [9], isPreIssuer := false }]

/-- C5: evaluation at the failing input.  On a chain whose second element
is a pre-issuer, the code hashes the SubjectPublicKeyInfo of `chain[1]`
(the pre-issuer itself), while the spec requires the hash of `chain[2]`'s
SubjectPublicKeyInfo; with the identity stand-in for SHA-256 the two
values differ.  The `certificate` field does follow the claim:
`BuildPrecertTBS(leaf.rawTBS, pre_issuer)`. -/
theorem stageZeroPrecert_issuerKeyHash_wrong_chain_element :
    (stageZeroPrecertEntry id (fun tbs _ => tbs) preIssuerChain).map
        (fun e => e.issuerKeyHash) = some [6] ∧
    specPrecertIssuerKeyHash id preIssuerChain = some [9] ∧
    (stageZeroPrecertEntry id (fun tbs _ => tbs) preIssuerChain).map
        (fun e => e.issuerKeyHash) ≠ specPrecertIssuerKeyHash id preIssuerChain ∧
    (stageZeroPrecertEntry id (fun tbs _ => tbs) preIssuerChain).map
        (fun e => e.certificate) = some [2] := by
  decide

/-! ## The monitor (internal/ctmonitor) -/

/-- `tlog.Tile` coordinates, which determine a storage path: height,
level (`-1` for the data level), index, and width. -/
structure Tile where
  h : Nat
  l : Int
  n : Nat
  w : Nat
deriving DecidableEq, Repr

/-- `sunlight.TileWidth = 1 << 8` (tile_ol.go:25-26). -/
def tileWidth : Nat := 256

/-- Result of `Fetch.getWithStatus` (fetch.go:28-45) for a tile path: the
body on HTTP 200, a 404, or another failing status. -/
inductive FetchResult where
  | ok (data : Bytes)
  | notFound
  | httpErr (code : Nat)
deriving DecidableEq, Repr

/-- `Fetch.getTile` (fetch.go:59-70): fetch the path of the tile exactly
as requested; on a 404, if the requested width was not the full width,
retry once at full width and return that second response whatever it is;
a 404 at full width is returned as such. -/
def getTile (store : Tile → FetchResult) (tile : Tile) : FetchResult :=
  match store tile with
  | .notFound =>
      if tile.w ≠ tileWidth then store { tile with w := tileWidth }
      else .notFound
  | r => r

/-- Modelled from the spec: "A fetch attempts the full-width path first;
if absent and a partial is known, it falls back to the partial path." -/
def specGetTileFullFirst (store : Tile → FetchResult) (tile : Tile) : FetchResult :=
  match store { tile with w := tileWidth } with
  | .notFound =>
      if tile.w ≠ tileWidth then store tile
      else .notFound
  | r => r

/-- A store holding both the partial tile of width 10 (with body `[1]`)
and the full-width tile (with body `[2]`) at the same data-tile
coordinate. -/
def bothTileStore : Tile → FetchResult := fun t =>
  if t = { h := 8, l := -1, n := 0, w := 10 } then .ok [1]
  else if t = { h := 8, l := -1, n := 0, w := 256 } then .ok [2]
  else .notFound

/-- C6 counterexample: when both the partial and the full-width tile
exist, `getTile` returns the partial's bytes — it attempts the requested
(partial) path first, not the full-width path first as claimed. -/
theorem getTile_requested_path_first :
    getTile bothTileStore { h := 8, l := -1, n := 0, w := 10 } = .ok [1] ∧
    specGetTileFullFirst bothTileStore { h := 8, l := -1, n := 0, w := 10 } = .ok [2] ∧
    getTile bothTileStore { h := 8, l := -1, n := 0, w := 10 }
      ≠ specGetTileFullFirst bothTileStore { h := 8, l := -1, n := 0, w := 10 } := by
  decide

/-- C6 (amended): the fetch attempts the requested tile path first (which
for right-edge tiles is the partial width) and uses its body if present;
only on a 404 with a non-full requested width does it retry once at the
full width (256), returning that response; a 404 at full width is final,
and any other HTTP error on the first attempt is returned without
fallback. -/
theorem getTile_fallback_direction (store : Tile → FetchResult) (tile : Tile) :
    (∀ data, store tile = .ok data → getTile store tile = .ok data) ∧
    (store tile = .notFound → tile.w ≠ tileWidth →
      getTile store tile = store { tile with w := tileWidth }) ∧
    (store tile = .notFound → tile.w = tileWidth →
      getTile store tile = .notFound) ∧
    (∀ c, store tile = .httpErr c → getTile store tile = .httpErr c) := by
  refine ⟨?_, ?_, ?_, ?_⟩ <;> intros <;> simp_all [getTile]

/-- C6 witness: the amended behaviour at two concrete tiles of
`bothTileStore` — a present partial, and an absent partial falling back to
the full width. -/
theorem getTile_fallback_direction_witness :
    (bothTileStore { h := 8, l := -1, n := 0, w := 10 } = .ok [1] ∧
      getTile bothTileStore { h := 8, l := -1, n := 0, w := 10 } = .ok [1]) ∧
    (bothTileStore { h := 8, l := -1, n := 1, w := 10 } = .notFound ∧
      ({ h := 8, l := -1, n := 1, w := 10 } : Tile).w ≠ tileWidth ∧
      getTile bothTileStore { h := 8, l := -1, n := 1, w := 10 }
        = bothTileStore { h := 8, l := -1, n := 1, w := 256 }) :=
  ⟨⟨by decide,
      (getTile_fallback_direction bothTileStore _).1 [1] (by decide)⟩,
    ⟨by decide, by decide,
      (getTile_fallback_direction bothTileStore _).2.1 (by decide) (by decide)⟩⟩

/-- HTTP outcome of `get_sth_consistency`: the status code and, on
success, the decoded consistency array. -/
structure ConsistencyResponse where
  code : Nat
  consistency : Option (List Bytes)
deriving DecidableEq, Repr

/-- `Fetch.get_sth_consistency` (the monitor logic file, lines 119-186),
embedded over parsed inputs: `first?` and `second?` are the query
parameters (`none` for a missing or unparseable value, both answered with
400), `sth?` is the tree size from `getSth` (`none` when the STH fetch
fails, answered with 521), and `proveTree` stands for `tlog.ProveTree`
(an error is answered with 523).  The proof variable starts out empty and
`ProveTree` is only invoked when `first >= 1`; JSON marshalling of the
response, which cannot fail on these values, is elided. -/
def get_sth_consistency (proveTree : Int → Int → Except Unit (List Bytes))
    (first? second? : Option Int) (sth? : Option Int) : ConsistencyResponse :=
  match first? with
  | none => ⟨400, none⟩
  | some first =>
    match second? with
    | none => ⟨400, none⟩
    | some second =>
      if first < 0 ∨ second < 0 then ⟨400, none⟩
      else if first > second then ⟨400, none⟩
      else
        match sth? with
        | none => ⟨521, none⟩
        | some treeSize =>
          if first > treeSize ∨ second > treeSize then ⟨400, none⟩
          else if 1 ≤ first then
            match proveTree second first with
            | .error _ => ⟨523, none⟩
            | .ok proof => ⟨200, some proof⟩
          else ⟨200, some []⟩

/-- C7: with the STH loaded, any request violating
`0 ≤ first ≤ second ≤ tree_size` is rejected with HTTP 400, and any valid
request with `first = 0` answers 200 with an empty consistency proof — for
every `proveTree` oracle, which shows `ProveTree` is not consulted on that
path. -/
theorem get_sth_consistency_validates
    (proveTree : Int → Int → Except Unit (List Bytes))
    (first second treeSize : Int) :
    (¬ (0 ≤ first ∧ first ≤ second ∧ second ≤ treeSize) →
      get_sth_consistency proveTree (some first) (some second) (some treeSize)
        = ⟨400, none⟩) ∧
    (0 ≤ second → second ≤ treeSize →
      get_sth_consistency proveTree (some 0) (some second) (some treeSize)
        = ⟨200, some []⟩) := by
  constructor
  · intro hbad
    unfold get_sth_consistency
    dsimp only
    split_ifs with h1 h2 h3 h4 <;> first | rfl | (exfalso; omega)
  · intro h0 h1
    unfold get_sth_consistency
    dsimp only
    rw [if_neg (by omega), if_neg (by omega), if_neg (by omega), if_neg (by omega)]

/-- C7 witness: a concrete negative `first` is rejected with 400, and a
concrete `first = 0` request yields the empty proof, under an oracle that
would fail if consulted. -/
theorem get_sth_consistency_validates_witness :
    (¬ (0 ≤ (-1 : Int) ∧ (-1 : Int) ≤ 2 ∧ (2 : Int) ≤ 5) ∧
      (0 : Int) ≤ 2 ∧ (2 : Int) ≤ 5) ∧
    (get_sth_consistency (fun _ _ => .error ()) (some (-1)) (some 2) (some 5)
        = ⟨400, none⟩ ∧
      get_sth_consistency (fun _ _ => .error ()) (some 0) (some 2) (some 5)
        = ⟨200, some []⟩) :=
  ⟨⟨by decide, by decide, by decide⟩,
    ⟨(get_sth_consistency_validates (fun _ _ => .error ()) (-1) 2 5).1 (by decide),
      (get_sth_consistency_validates (fun _ _ => .error ()) 0 2 5).2
        (by decide) (by decide)⟩⟩


/-- RFC 6962 `MerkleTreeLeaf` encoding of a LogEntry
(`LogEntry.MerkleTreeLeaf`, tile_ol.go:100-126): version and leaf-type
bytes, then the TimestampedEntry fields and the extensions block.  (The
cryptobyte builder can only overflow on a u24-oversized certificate;
entries decoded from tiles always satisfy that bound, so the guard is
omitted here.) -/
def merkleTreeLeaf (e : LogEntry) : Bytes :=
  [0] ++ [0] ++ beBytes 8 (uint64OfInt e.timestamp)
    ++ (if e.isPrecert then beBytes 2 1 ++ e.issuerKeyHash else beBytes 2 0)
    ++ (beBytes 3 e.certificate.length ++ e.certificate)
    ++ addExtensions e.leafIndex

/-- The `extra_data` assembled by `get_entries`: a `CertificateChain` for
x509 entries, a `PrecertChainEntry` for precerts. -/
inductive ExtraData where
  | certificateChain (entries : List Bytes)
  | precertChainEntry (preCertificate : Bytes) (certificateChain : List Bytes)
deriving DecidableEq, Repr

/-- Number of issuer certificates carried in the extra data. -/
def ExtraData.chainLength : ExtraData → Nat
  | .certificateChain es => es.length
  | .precertChainEntry _ es => es.length

/-- `ct.LeafEntry` as produced by `get_entries`. -/
structure CtLeafEntry where
  leafInput : Bytes
  extraData : ExtraData
deriving DecidableEq, Repr

/-- Outcome of the issuer-chain loop for one entry. -/
inductive ChainResult (σ : Type) where
  | budgetBreak (s : σ)
  | fetchErr (s : σ)
  | done (s : σ) (chain : List Bytes)

/-- The inner loop of `get_entries` over one entry's chain fingerprints:
before each issuer fetch the code checks `f.s.AvailableReqs() == 0` and,
if the budget is exhausted, breaks out of the whole entry loop
(`break outerloop`), discarding the partially built chain; a fetch error
aborts the request (HTTP 518).  The storage backend is abstract: a state
`σ` with `avail` (`FastlyStorage.AvailableReqs`, which returns
`requestLimit - requests`) and a state-threading `get`. -/
def chainFetchLoop {σ : Type} (avail : σ → Int)
    (get : σ → Bytes → σ × Except Unit Bytes) :
    σ → List Bytes → ChainResult σ
  | s, [] => .done s []
  | s, fp :: fps =>
    if avail s = 0 then .budgetBreak s
    else
      match get s fp with
      | (s1, .error _) => .fetchErr s1
      | (s1, .ok data) =>
        match chainFetchLoop avail get s1 fps with
        | .done s2 chain => .done s2 (data :: chain)
        | r => r

/-- The entry loop of `get_entries`: each decoded entry's issuer chain is
fetched in full before the entry is appended to the response; a budget
break stops the loop, keeping exactly the entries finished so far; a
fetch error fails the whole request. -/
def getEntriesLoop {σ : Type} (avail : σ → Int)
    (get : σ → Bytes → σ × Except Unit Bytes) :
    σ → List LogEntry → σ × Except Unit (List CtLeafEntry)
  | s, [] => (s, .ok [])
  | s, entry :: rest =>
    match chainFetchLoop avail get s entry.chainFp with
    | .budgetBreak s1 => (s1, .ok [])
    | .fetchErr s1 => (s1, .error ())
    | .done s1 chain =>
      match getEntriesLoop avail get s1 rest with
      | (s2, .ok out) =>
        (s2, .ok ({ leafInput := merkleTreeLeaf entry,
                    extraData := if entry.isPrecert then
                        .precertChainEntry entry.preCertificate chain
                      else .certificateChain chain } :: out))
      | r => r

theorem chainFetchLoop_done_length {σ : Type} (avail : σ → Int)
    (get : σ → Bytes → σ × Except Unit Bytes) :
    ∀ (fps : List Bytes) (s s2 : σ) (chain : List Bytes),
      chainFetchLoop avail get s fps = .done s2 chain → chain.length = fps.length := by
  intro fps
  induction fps with
  | nil =>
    intro s s2 chain h
    simp only [chainFetchLoop] at h
    cases h
    rfl
  | cons fp fps ih =>
    intro s s2 chain h
    simp only [chainFetchLoop] at h
    split_ifs at h with hb
    cases hg : get s fp with
      | mk s1 res =>
        rw [hg] at h
        cases res with
        | error e => exact ChainResult.noConfusion h
        | ok data =>
          simp only at h
          cases hr : chainFetchLoop avail get s1 fps with
          | done s3 c3 =>
            rw [hr] at h
            simp only at h
            cases h
            simpa using ih s1 s2 c3 hr
          | budgetBreak s3 => rw [hr] at h; exact ChainResult.noConfusion h
          | fetchErr s3 => rw [hr] at h; exact ChainResult.noConfusion h

/-- C10: whenever `get_entries` returns successfully — in particular when
a budget break cut the loop short — the returned entries are the leading
prefix of the decoded entry range, in order, and each returned entry's
extra data carries one fetched issuer certificate per chain fingerprint
(a complete chain); no entry with a partially fetched chain is returned. -/
theorem getEntriesLoop_budget_prefix {σ : Type} (avail : σ → Int)
    (get : σ → Bytes → σ × Except Unit Bytes) :
    ∀ (entries : List LogEntry) (s : σ) (out : List CtLeafEntry),
      (getEntriesLoop avail get s entries).2 = .ok out →
      ∃ k, k ≤ entries.length ∧
        out.map (fun le => le.leafInput) = (entries.take k).map merkleTreeLeaf ∧
        out.map (fun le => le.extraData.chainLength)
          = (entries.take k).map (fun e => e.chainFp.length) := by
  intro entries
  induction entries with
  | nil =>
    intro s out h
    simp only [getEntriesLoop] at h
    cases h
    exact ⟨0, by simp⟩
  | cons entry rest ih =>
    intro s out h
    simp only [getEntriesLoop] at h
    cases hc : chainFetchLoop avail get s entry.chainFp with
    | budgetBreak s1 =>
      rw [hc] at h
      simp only at h
      cases h
      exact ⟨0, by simp⟩
    | fetchErr s1 =>
      rw [hc] at h
      exact Except.noConfusion h
    | done s1 chain =>
      rw [hc] at h
      simp only at h
      cases hr : getEntriesLoop avail get s1 rest with
      | mk s2 res =>
        rw [hr] at h
        cases res with
        | error e => exact Except.noConfusion h
        | ok out1 =>
          simp only at h
          cases h
          obtain ⟨k, hk, h1, h2⟩ := ih s1 out1 (by rw [hr])
          refine ⟨k + 1, by simpa using hk, ?_, ?_⟩
          · simp [List.take_succ_cons, h1]
          · have hlen : chain.length = entry.chainFp.length :=
              chainFetchLoop_done_length avail get entry.chainFp s s1 chain hc
            have hext : (ExtraData.chainLength
                (if entry.isPrecert then
                    ExtraData.precertChainEntry entry.preCertificate chain
                  else ExtraData.certificateChain chain)) = chain.length := by
              cases entry.isPrecert <;> simp [ExtraData.chainLength]
            simp [List.take_succ_cons, h2, hext, hlen]


/-- A request-counting storage with budget 3: `AvailableReqs` is
`3 - requests`, and each issuer fetch succeeds, returning the fingerprint
with a `0` byte prepended. -/
def budgetAvail (n : Nat) : Int := 3 - (n : Int)

/-- The fetch of the budget-3 storage: one request consumed per call. -/
def budgetGet (n : Nat) (fp : Bytes) : Nat × Except Unit Bytes := (n + 1, .ok (0 :: fp))

/-- First sample entry: two chain fingerprints. -/
def entryA : LogEntry :=
  { certificate := [1], isPrecert := false, issuerKeyHash := List.replicate 32 0,
    preCertificate := [], certificateFp := [2], chainFp := [[1], [2]], chain := [],
    timestamp := 0, leafIndex := 0 }

/-- Second sample entry: two chain fingerprints. -/
def entryB : LogEntry :=
  { certificate := [3], isPrecert := false, issuerKeyHash := List.replicate 32 0,
    preCertificate := [], certificateFp := [4], chainFp := [[3], [4]], chain := [],
    timestamp := 0, leafIndex := 1 }

/-- The expected response for the budget-3 run: the first entry only,
with its complete chain. -/
def sampleOut : List CtLeafEntry :=
  [{ leafInput := merkleTreeLeaf entryA,
     extraData := ExtraData.certificateChain [[0, 1], [0, 2]] }]

/-- C10 witness: with budget 3 and two entries of two issuers each, the
budget runs out inside the second entry's chain; the response is exactly
the first entry with its complete two-certificate chain. -/
theorem getEntriesLoop_budget_prefix_witness :
    (getEntriesLoop budgetAvail budgetGet 0 [entryA, entryB]).2 = .ok sampleOut ∧
    ∃ k, k ≤ ([entryA, entryB] : List LogEntry).length ∧
      sampleOut.map (fun le => le.leafInput)
        = (([entryA, entryB] : List LogEntry).take k).map merkleTreeLeaf ∧
      sampleOut.map (fun le => le.extraData.chainLength)
        = (([entryA, entryB] : List LogEntry).take k).map (fun e => e.chainFp.length) :=
  ⟨by rfl,
    getEntriesLoop_budget_prefix budgetAvail budgetGet [entryA, entryB] 0
      sampleOut (by rfl)⟩

end Itko
